import Mathlib

/-!
Verification of the fixed-capacity first-fit block allocator
(`src/include/memory_resource.hpp`) and the PMR-backed FIFO queue
(`src/include/pmr_queue.hpp`).

The allocator state is embedded shallowly: offsets, sizes and alignments are
natural numbers, and every arithmetic operation the C++ source performs on
`std::size_t` values is taken modulo `2 ^ 64` exactly where the source's
unsigned arithmetic wraps.  Pointers are modelled as natural-number addresses;
the arena's base address plays the role of `buffer_`, and the null pointer is
address `0`.  Exceptions are modelled with `Except`: each distinct throw site
of the source gets its own error constructor.
-/

/-- Word modulus of `std::size_t` on the target platform (64-bit). -/
def sizeTMod : Nat := 2 ^ 64

/-- Value of `alignof(std::max_align_t)` on the target platform (x86-64). -/
def alignof_max_align_t : Nat := 16

/-- One record of the occupied-block index: `struct Block { size_t offset; size_t size; }`. -/
structure Block where
  offset : Nat
  size : Nat
deriving Repr, DecidableEq

/-- State of one `CustomBlockMemoryResource` instance.  `buffer_base` is the
address `operator new` returned for the arena (`buffer_`); `blocks` is the
vector `blocks_`, kept sorted by `offset` by `commit_block`. -/
structure CustomBlockMemoryResource where
  capacity : Nat
  buffer_alignment : Nat
  buffer_base : Nat
  blocks : List Block
deriving Repr, DecidableEq

/-- Error of the constructor: `std::invalid_argument`. -/
inductive ConstructError where
  | invalidConfiguration
deriving Repr, DecidableEq

/-- Errors of `do_allocate`.  Both throw sites raise `std::bad_alloc` in the
source; the constructors record which site threw. -/
inductive AllocError where
  | alignmentExceeded
  | outOfMemory
deriving Repr, DecidableEq

/-- Errors of `do_deallocate`.  Both throw sites raise `std::logic_error` in
the source, with distinct messages. -/
inductive DeallocError where
  | foreignPointer
  | doubleFreeOrUnmanaged
deriving Repr, DecidableEq

namespace CustomBlockMemoryResource

/-- The constructor.  `capacity_bytes == 0` is rejected, then the check
`(buffer_alignment_ & (buffer_alignment_ - 1)) != 0` runs.  In C++ the
subtraction wraps for `buffer_alignment_ == 0`, giving `0 & SIZE_MAX == 0`;
Lean's truncated `0 - 1 = 0` gives `0 &&& 0 = 0`, the same verdict.
`base` is the (non-null) address `operator new` returns for the arena. -/
def construct (capacity_bytes buffer_alignment base : Nat) :
    Except ConstructError CustomBlockMemoryResource :=
  if capacity_bytes = 0 then
    Except.error ConstructError.invalidConfiguration
  else if (buffer_alignment &&& (buffer_alignment - 1)) ≠ 0 then
    Except.error ConstructError.invalidConfiguration
  else
    Except.ok { capacity := capacity_bytes, buffer_alignment := buffer_alignment,
                buffer_base := base, blocks := [] }

/-- Static helper `align_offset`.  The sum `offset + (alignment - remainder)`
is `size_t` arithmetic, hence the modulus. -/
def align_offset (offset alignment : Nat) : Nat :=
  if alignment = 0 then
    offset
  else
    let remainder := offset % alignment
    if remainder = 0 then offset else (offset + (alignment - remainder)) % sizeTMod

/-- Insertion of `commit_block`: `std::lower_bound` by `offset` finds the first
record whose offset is not less than the new one, and the new record is
inserted before it. -/
def insertBlock (offset size : Nat) : List Block → List Block
  | [] => [⟨offset, size⟩]
  | b :: rest =>
    if b.offset < offset then b :: insertBlock offset size rest
    else ⟨offset, size⟩ :: b :: rest

/-- Member `commit_block`: record the new block (sorted insert) and return the
offset; the source returns `buffer_ + offset`. -/
def commit_block (r : CustomBlockMemoryResource) (offset size : Nat) :
    CustomBlockMemoryResource :=
  { r with blocks := insertBlock offset size r.blocks }

/-- The `for` loop of `do_allocate`: scan the occupied records in index order
with a moving cursor.  Returns `Sum.inl o` when a gap between records fits at
aligned offset `o`, else `Sum.inr c` with the cursor value after the last
record.  The comparisons and the cursor update are `size_t` arithmetic. -/
def firstFitScan (bytes required_alignment : Nat) :
    List Block → Nat → Sum Nat Nat
  | [], current_offset => Sum.inr current_offset
  | b :: rest, current_offset =>
    let aligned_offset := align_offset current_offset required_alignment
    if (aligned_offset + bytes) % sizeTMod ≤ b.offset then Sum.inl aligned_offset
    else firstFitScan bytes required_alignment rest ((b.offset + b.size) % sizeTMod)

/-- Member `do_allocate`.  On success returns the chosen offset (the source
returns `buffer_ + offset`) together with the updated state. -/
def do_allocate (r : CustomBlockMemoryResource) (bytes alignment : Nat) :
    Except AllocError (Nat × CustomBlockMemoryResource) :=
  let bytes := if bytes = 0 then 1 else bytes
  let required_alignment := if alignment = 0 then alignof_max_align_t else alignment
  if required_alignment > r.buffer_alignment then
    Except.error AllocError.alignmentExceeded
  else
    match firstFitScan bytes required_alignment r.blocks 0 with
    | Sum.inl aligned_offset => Except.ok (aligned_offset, commit_block r aligned_offset bytes)
    | Sum.inr current_offset =>
      let aligned_offset := align_offset current_offset required_alignment
      if (aligned_offset + bytes) % sizeTMod > r.capacity then
        Except.error AllocError.outOfMemory
      else
        Except.ok (aligned_offset, commit_block r aligned_offset bytes)

/-- The erase loop of `do_deallocate`: remove the first record whose offset
equals the given one; `none` when no record matches. -/
def removeBlockAt (off : Nat) : List Block → Option (List Block)
  | [] => none
  | b :: rest =>
    if b.offset = off then some rest
    else
      match removeBlockAt off rest with
      | some rest2 => some (b :: rest2)
      | none => none

/-- Arena membership test of `do_deallocate`:
`!(byte_ptr < buffer_ || byte_ptr >= buffer_ + capacity_)`. -/
def inArena (r : CustomBlockMemoryResource) (p : Nat) : Prop :=
  r.buffer_base ≤ p ∧ p < r.buffer_base + r.capacity

instance (r : CustomBlockMemoryResource) (p : Nat) : Decidable (inArena r p) :=
  inferInstanceAs (Decidable (_ ∧ _))

/-- Member `do_deallocate`.  The size and alignment hints are accepted and
ignored, as in the source (its parameters are unnamed). -/
def do_deallocate (r : CustomBlockMemoryResource) (p size_hint alignment_hint : Nat) :
    Except DeallocError CustomBlockMemoryResource :=
  if p = 0 then
    Except.ok r
  else if p < r.buffer_base ∨ r.buffer_base + r.capacity ≤ p then
    Except.error DeallocError.foreignPointer
  else
    match removeBlockAt (p - r.buffer_base) r.blocks with
    | some bs => Except.ok { r with blocks := bs }
    | none => Except.error DeallocError.doubleFreeOrUnmanaged

end CustomBlockMemoryResource

open CustomBlockMemoryResource

/-- One external call to the allocator. -/
inductive AllocOp where
  | alloc (bytes alignment : Nat)
  | dealloc (p size_hint alignment_hint : Nat)
deriving Repr, DecidableEq

/-- Apply one call: a thrown exception leaves the instance's state unchanged
(the source never mutates `blocks_` before a throw). -/
def applyOp (r : CustomBlockMemoryResource) : AllocOp → CustomBlockMemoryResource
  | AllocOp.alloc bytes alignment =>
    match do_allocate r bytes alignment with
    | Except.ok (_, r2) => r2
    | Except.error _ => r
  | AllocOp.dealloc p s a =>
    match do_deallocate r p s a with
    | Except.ok r2 => r2
    | Except.error _ => r

/-- Run a sequence of calls. -/
def runOps (r : CustomBlockMemoryResource) : List AllocOp → CustomBlockMemoryResource
  | [] => r
  | op :: ops => runOps (applyOp r op) ops

/-- Discriminator for failed calls. -/
def isErr {ε α : Type} : Except ε α → Bool
  | Except.error _ => true
  | Except.ok _ => false

/-- True when the given call would throw in the given state. -/
def opFails (r : CustomBlockMemoryResource) : AllocOp → Bool
  | AllocOp.alloc b a => isErr (do_allocate r b a)
  | AllocOp.dealloc p s a => isErr (do_deallocate r p s a)

/-- A point of the arena lies in a record's byte range `[offset, offset+size)`. -/
def memRange (b : Block) (x : Nat) : Prop := b.offset ≤ x ∧ x < b.offset + b.size

instance (b : Block) (x : Nat) : Decidable (memRange b x) :=
  inferInstanceAs (Decidable (_ ∧ _))

/-- Rounding rule exactly as §4.2 of the spec words it, over unbounded
natural numbers. -/
def spec_align_up (x a : Nat) : Nat :=
  if a = 0 then x else if x % a = 0 then x else x + (a - x % a)

/-- First-fit scan exactly as §4.2 of the spec words it, over unbounded
natural numbers: walk the records in index order, place at the first gap whose
aligned candidate fits, fall through to the final gap against `cap`. -/
def spec_scan (cap bytes a : Nat) : List Block → Nat → Option Nat
  | [], cursor =>
    let cand := spec_align_up cursor a
    if cand + bytes ≤ cap then some cand else none
  | b :: rest, cursor =>
    let cand := spec_align_up cursor a
    if cand + bytes ≤ b.offset then some cand
    else spec_scan cap bytes a rest (b.offset + b.size)

/-- Placement as the spec words it: normalize a zero-byte request to one byte,
then run the first-fit scan; `none` is the spec's `OutOfMemory`. -/
def spec_first_fit (cap bytes a : Nat) (blocks : List Block) : Option Nat :=
  spec_scan cap (if bytes = 0 then 1 else bytes) a blocks 0

/-- Deallocation exactly as §4.3 of the spec words it (the spec has no
special case for a null pointer). -/
def spec_deallocate (r : CustomBlockMemoryResource) (p : Nat) :
    Except DeallocError CustomBlockMemoryResource :=
  if p < r.buffer_base ∨ r.buffer_base + r.capacity ≤ p then
    Except.error DeallocError.foreignPointer
  else
    match removeBlockAt (p - r.buffer_base) r.blocks with
    | some bs => Except.ok { r with blocks := bs }
    | none => Except.error DeallocError.doubleFreeOrUnmanaged

/-- A 100-byte arena with the default alignment ceiling 64, based at 4096. -/
def r100 : CustomBlockMemoryResource :=
  { capacity := 100, buffer_alignment := 64, buffer_base := 4096, blocks := [] }

/-- Three 16-byte allocations at offsets 0, 16, 32, then free the middle one:
leaves records at offsets 0 and 32 with a 16-byte hole between them. -/
def opsPrefix : List AllocOp :=
  [AllocOp.alloc 16 1, AllocOp.alloc 16 1, AllocOp.alloc 16 1,
   AllocOp.dealloc 4112 16 1]

/-- The prefix above followed by a request of `2^64 - 8` bytes at alignment 16:
`16 + (2^64 - 8)` wraps to `8 ≤ 32`, so the code places this request in the
16-byte hole. -/
def opsOverlap : List AllocOp :=
  opsPrefix ++ [AllocOp.alloc (sizeTMod - 8) 16]

/-- An arena of capacity `2^64 - 1`, the largest `size_t` value. -/
def rHuge : CustomBlockMemoryResource :=
  { capacity := sizeTMod - 1, buffer_alignment := 64, buffer_base := 4096, blocks := [] }

/-- A 100-byte arena holding two live 16-byte records at offsets 0 and 16. -/
def rDemo : CustomBlockMemoryResource :=
  { capacity := 100, buffer_alignment := 64, buffer_base := 4096,
    blocks := [⟨0, 16⟩, ⟨16, 16⟩] }

/-!
The FIFO queue of `pmr_queue.hpp`.  Nodes live in a store of address/node
pairs; `next` pointers and the `head_`/`tail_` pointers are `Option Nat`
addresses, with `none` for `nullptr`.  A fresh-address counter stands in for
the allocator, whose only property the queue relies on is that a newly
allocated node is distinct from every live node.
-/

/-- One heap node: `struct Node { T value; Node* next; }`. -/
structure QNode (T : Type) where
  value : T
  next : Option Nat

/-- State of one `PmrQueue` instance. -/
structure PmrQueue (T : Type) where
  store : List (Nat × QNode T)
  head : Option Nat
  tail : Option Nat
  size : Nat
  nextAddr : Nat

namespace PmrQueue

variable {T : Type}

/-- A freshly constructed, empty queue. -/
def emptyQueue (T : Type) : PmrQueue T :=
  { store := [], head := none, tail := none, size := 0, nextAddr := 0 }

/-- Dereference an address in the node store. -/
def lookupNode (store : List (Nat × QNode T)) (a : Nat) : Option (QNode T) :=
  match store with
  | [] => none
  | p :: rest => if p.1 = a then some p.2 else lookupNode rest a

/-- Pointer write `node->next = nx` at address `a`. -/
def setNext (store : List (Nat × QNode T)) (a : Nat) (nx : Option Nat) :
    List (Nat × QNode T) :=
  match store with
  | [] => []
  | p :: rest =>
    if p.1 = a then (p.1, ⟨p.2.value, nx⟩) :: rest else p :: setNext rest a nx

/-- Free the node at address `a` (the `deallocate` in `pop`). -/
def removeAddr (store : List (Nat × QNode T)) (a : Nat) : List (Nat × QNode T) :=
  match store with
  | [] => []
  | p :: rest => if p.1 = a then rest else p :: removeAddr rest a

/-- Member `emplace` (also `push`): allocate a node holding `v` with null
`next`, link it after `tail_` (or make it the sole node), bump the size. -/
def emplace (q : PmrQueue T) (v : T) : PmrQueue T :=
  let newAddr := q.nextAddr
  let store1 := (newAddr, ⟨v, none⟩) :: q.store
  match q.tail with
  | none =>
    { store := store1, head := some newAddr, tail := some newAddr,
      size := q.size + 1, nextAddr := newAddr + 1 }
  | some t =>
    { store := setNext store1 t (some newAddr), head := q.head,
      tail := some newAddr, size := q.size + 1, nextAddr := newAddr + 1 }

/-- Member `pop`.  `none` models the `std::out_of_range` throw on an empty
queue.  Otherwise advance `head_` to `head_->next`, null `tail_` when the
queue became empty, destroy and free the old head. -/
def pop (q : PmrQueue T) : Option (PmrQueue T) :=
  match q.head with
  | none => none
  | some oldHead =>
    let newHead :=
      match lookupNode q.store oldHead with
      | some n => n.next
      | none => none
    some { store := removeAddr q.store oldHead,
           head := newHead,
           tail := if newHead = none then none else q.tail,
           size := q.size - 1,
           nextAddr := q.nextAddr }

/-- Member `front`.  `none` models the `std::out_of_range` throw on an empty
queue; otherwise the value of the head node. -/
def front (q : PmrQueue T) : Option T :=
  match q.head with
  | none => none
  | some h => (lookupNode q.store h).map QNode.value

/-- The iterator walk from `begin()` (the head) to `end()` (null), collecting
the visited values.  The fuel bounds the walk; the chain of a well-formed
queue is acyclic and shorter than the store, so the fuel never runs out. -/
def collectFrom (store : List (Nat × QNode T)) : Option Nat → Nat → List T
  | none, _ => []
  | some _, 0 => []
  | some a, Nat.succ fuel =>
    match lookupNode store a with
    | none => []
    | some n => n.value :: collectFrom store n.next fuel

/-- Values visited by a full forward iteration of the queue. -/
def toList (q : PmrQueue T) : List T :=
  collectFrom q.store q.head q.store.length

/-- Push every element of `xs` in order. -/
def pushAll (q : PmrQueue T) (xs : List T) : PmrQueue T :=
  xs.foldl emplace q

/-- Observe `front`, then `pop`, `n` times, collecting the observed values;
stops early if the queue empties out. -/
def frontPopN : PmrQueue T → Nat → List T
  | _, 0 => []
  | q, Nat.succ n =>
    match front q, pop q with
    | some v, some q2 => v :: frontPopN q2 n
    | _, _ => []

/-- The linked chain of the queue: starting from pointer `cur`, the addresses
`as` are visited in order and hold the values `vs`, ending at null. -/
inductive NodeChain (store : List (Nat × QNode T)) : Option Nat → List Nat → List T → Prop
  | nil : NodeChain store none [] []
  | cons {a : Nat} {v : T} {nx : Option Nat} {as : List Nat} {vs : List T} :
      lookupNode store a = some ⟨v, nx⟩ →
      NodeChain store nx as vs →
      NodeChain store (some a) (a :: as) (v :: vs)

/-- Well-formedness of a queue state: the store holds exactly the nodes of the
chain from `head` (newest first), `tail` is the last chain address, all
addresses are below the fresh counter, and no address repeats. -/
def queueWf (q : PmrQueue T) (as : List Nat) (vs : List T) : Prop :=
  NodeChain q.store q.head as vs ∧
  q.store.map Prod.fst = as.reverse ∧
  q.tail = as.getLast? ∧
  (∀ a ∈ as, a < q.nextAddr) ∧
  as.Nodup

end PmrQueue

/-!
Theorems.  Each claim of the specification review is settled by exactly one
named theorem below; shared lemmas carry the real work.
-/

/-- C1: the claim that after every sequence of allocate/deallocate calls the
occupied-block index is sorted and all live byte ranges are pairwise disjoint
is violated by the code: from a 100-byte arena with records at offsets 0 and
32, a request of `2^64 - 8` bytes at alignment 16 wraps the fit check
(`16 + (2^64 - 8)` is 8 as `size_t`, and `8 ≤ 32`), so the code commits the
record `(16, 2^64 - 8)`, whose byte range and the range of `(32, 16)` both
contain byte 32. -/
theorem no_overlap_invariant_violated :
    construct 100 64 4096 = Except.ok r100 ∧
    (runOps r100 opsOverlap).blocks =
      [⟨0, 16⟩, ⟨16, sizeTMod - 8⟩, ⟨32, 16⟩] ∧
    (⟨16, sizeTMod - 8⟩ : Block) ∈ (runOps r100 opsOverlap).blocks ∧
    (⟨32, 16⟩ : Block) ∈ (runOps r100 opsOverlap).blocks ∧
    (⟨16, sizeTMod - 8⟩ : Block) ≠ ⟨32, 16⟩ ∧
    memRange ⟨16, sizeTMod - 8⟩ 32 ∧ memRange ⟨32, 16⟩ 32 := by
  refine ⟨rfl, rfl, ?_, ?_, by decide, by decide, by decide⟩ <;> decide

/-- C2: the claim that the chosen offset is always the one produced by the
first-fit scan (with genuine arithmetic, failing with OutOfMemory when no gap
fits) is violated by the code at the same request: the spec's scan finds no
fitting gap for `2^64 - 8` bytes, but the code's wrapped comparison places
the request at offset 16. -/
theorem first_fit_scan_violated :
    (runOps r100 opsPrefix).blocks = [⟨0, 16⟩, ⟨32, 16⟩] ∧
    spec_first_fit 100 (sizeTMod - 8) 16 [⟨0, 16⟩, ⟨32, 16⟩] = none ∧
    do_allocate (runOps r100 opsPrefix) (sizeTMod - 8) 16 =
      Except.ok (16, { capacity := 100, buffer_alignment := 64, buffer_base := 4096,
                       blocks := [⟨0, 16⟩, ⟨16, sizeTMod - 8⟩, ⟨32, 16⟩] }) := by
  exact ⟨rfl, rfl, rfl⟩

/-- C4: the claim that every live record satisfies `offset + size ≤ capacity`
in every reachable state is violated by the code: the same wrapped request
commits the record `(16, 2^64 - 8)` into the 100-byte arena. -/
theorem capacity_bound_violated :
    construct 100 64 4096 = Except.ok r100 ∧
    (⟨16, sizeTMod - 8⟩ : Block) ∈ (runOps r100 opsOverlap).blocks ∧
    ¬ (16 + (sizeTMod - 8) ≤ (runOps r100 opsOverlap).capacity) := by
  refine ⟨rfl, by decide, by decide⟩

/-- C6: the claim that construction fails exactly when the capacity is zero or
the alignment ceiling is not a power of two is contradicted by the code:
`buffer_alignment == 0` passes the check `(a & (a - 1)) != 0` because the
`size_t` subtraction wraps (`0 & SIZE_MAX == 0`), yet 0 is not a power of
two.  The accepted value is then handed to `operator new` as
`std::align_val_t(0)`, which is not a valid alignment. -/
theorem construct_accepts_zero_alignment :
    construct 1 0 4096 =
      Except.ok { capacity := 1, buffer_alignment := 0, buffer_base := 4096, blocks := [] } ∧
    ∀ k : Nat, (0 : Nat) ≠ 2 ^ k := by
  exact ⟨rfl, fun k => (pow_pos (by decide : (0:Nat) < 2) k).ne⟩

/-- C3 counterexample: with capacity `2^64 - 1`, allocate the whole arena and
then request 1 byte at alignment 7 (the arena's ceiling 64 admits it).  The
cursor is `2^64 - 1`; rounding it up to a multiple of 7 wraps to 5, so the
call succeeds at offset 5, and `5 % 7 ≠ 0` — the alignment was effectively
rounded down, contradicting the claim for non-power-of-two alignments. -/
theorem align_up_wraps_for_non_power_of_two :
    construct (sizeTMod - 1) 64 4096 = Except.ok rHuge ∧
    (applyOp rHuge (AllocOp.alloc (sizeTMod - 1) 1)).blocks = [⟨0, sizeTMod - 1⟩] ∧
    do_allocate (applyOp rHuge (AllocOp.alloc (sizeTMod - 1) 1)) 1 7 =
      Except.ok (5, { capacity := sizeTMod - 1, buffer_alignment := 64, buffer_base := 4096,
                      blocks := [⟨0, sizeTMod - 1⟩, ⟨5, 1⟩] }) ∧
    ¬ (5 % 7 = 0) := by
  exact ⟨rfl, rfl, rfl, by decide⟩

/-- C5 counterexample: the null pointer lies outside the arena
`[4096, 4196)`, yet deallocating it succeeds as a no-op instead of failing
with ForeignPointer. -/
theorem deallocate_null_accepted :
    do_deallocate rDemo 0 16 8 = Except.ok rDemo ∧ ¬ inArena rDemo 0 := by
  exact ⟨rfl, by decide⟩

/-!
Helper lemmas about the allocator.
-/

/-- Rounding up to a divisor of the word modulus yields a multiple, even when
the `size_t` sum wraps. -/
theorem align_offset_multiple (x a : Nat) (ha : 0 < a) (hd : a ∣ sizeTMod) :
    align_offset x a % a = 0 := by
  unfold align_offset
  rw [if_neg (Nat.pos_iff_ne_zero.mp ha)]
  by_cases h : x % a = 0
  · rw [if_pos h]
    exact h
  · rw [if_neg h]
    rw [Nat.mod_mod_of_dvd _ hd]
    have hx := Nat.div_add_mod x a
    have hlt : x % a < a := Nat.mod_lt _ ha
    set rem := x % a with hrem
    set m := a * (x / a) with hm
    have heq : x + (a - rem) = m + a := by omega
    rw [heq, Nat.add_mod_right, hm]
    exact Nat.mul_mod_right a (x / a)

/-- Every offset the scan loop proposes is a rounded-up candidate. -/
theorem firstFitScan_inl_shape (bytes ra : Nat) (bs : List Block) (cur o : Nat)
    (h : firstFitScan bytes ra bs cur = Sum.inl o) :
    ∃ x, o = align_offset x ra := by
  induction bs generalizing cur with
  | nil => simp [firstFitScan] at h
  | cons b rest ih =>
    simp only [firstFitScan] at h
    by_cases hc : (align_offset cur ra + bytes) % sizeTMod ≤ b.offset
    · rw [if_pos hc] at h
      cases h
      exact ⟨cur, rfl⟩
    · rw [if_neg hc] at h
      exact ih _ h

/-- C3 (amended): for every successful `allocate(n, a)` whose requested
alignment is a power of two (as the input contract of §4.2 demands), the
returned offset is a multiple of `a`; power-of-two alignments below `2^64`
divide the word modulus, so the candidate stays a multiple even if the
rounding sum wraps. -/
theorem allocate_pow_two_alignment_respected (r : CustomBlockMemoryResource)
    (bytes a k off : Nat) (r2 : CustomBlockMemoryResource)
    (hk : a = 2 ^ k) (ha : a < sizeTMod)
    (h : do_allocate r bytes a = Except.ok (off, r2)) :
    off % a = 0 := by
  have ha0 : a ≠ 0 := by
    subst hk
    exact (pow_pos (by decide : (0:Nat) < 2) k).ne'
  have hpos : 0 < a := Nat.pos_of_ne_zero ha0
  have hd : a ∣ sizeTMod := by
    subst hk
    have hk64 : k < 64 := by
      by_contra hge
      push_neg at hge
      have hle : (2:Nat) ^ 64 ≤ 2 ^ k := Nat.pow_le_pow_right (by decide) hge
      have : sizeTMod = 2 ^ 64 := rfl
      omega
    show (2:Nat) ^ k ∣ 2 ^ 64
    exact pow_dvd_pow 2 (Nat.le_of_lt hk64)
  simp only [do_allocate, if_neg ha0, gt_iff_lt] at h
  generalize (if bytes = 0 then 1 else bytes) = B at h
  split at h
  · exact Except.noConfusion h
  · split at h
    · rename_i o2 hscan
      obtain ⟨x, hx⟩ := firstFitScan_inl_shape _ _ _ _ _ hscan
      injection h with hpair
      injection hpair with h1 h2
      rw [← h1, hx]
      exact align_offset_multiple x a hpos hd
    · rename_i cur hscan
      split at h
      · exact Except.noConfusion h
      · injection h with hpair
        injection hpair with h1 h2
        rw [← h1]
        exact align_offset_multiple cur a hpos hd

/-- Witness for the amended C3 theorem at a concrete power-of-two request. -/
theorem allocate_pow_two_alignment_respected_w :
    (16 : Nat) = 2 ^ 4 ∧ (16 : Nat) < sizeTMod ∧
    do_allocate r100 8 16 =
      Except.ok (0, { capacity := 100, buffer_alignment := 64, buffer_base := 4096,
                      blocks := [⟨0, 8⟩] }) ∧
    (0 : Nat) % 16 = 0 :=
  ⟨rfl, by decide, rfl,
    allocate_pow_two_alignment_respected r100 8 16 4 0
      { capacity := 100, buffer_alignment := 64, buffer_base := 4096, blocks := [⟨0, 8⟩] }
      rfl (by decide) rfl⟩

/-- When no record's offset matches, the erase loop finds nothing. -/
theorem removeBlockAt_eq_none (off : Nat) (bs : List Block)
    (h : ∀ b ∈ bs, b.offset ≠ off) : removeBlockAt off bs = none := by
  induction bs with
  | nil => rfl
  | cons b rest ih =>
    unfold removeBlockAt
    rw [if_neg (h b (by simp))]
    rw [ih (fun b2 hb2 => h b2 (by simp [hb2]))]

/-- The erase loop removes exactly the first matching record and leaves every
other record in place. -/
theorem removeBlockAt_first (off : Nat) (pre : List Block) (b : Block) (suf : List Block)
    (hb : b.offset = off) (hpre : ∀ b2 ∈ pre, b2.offset ≠ off) :
    removeBlockAt off (pre ++ b :: suf) = some (pre ++ suf) := by
  induction pre with
  | nil => simp [removeBlockAt, hb]
  | cons c rest ih =>
    have hrec := ih (fun b2 hb2 => hpre b2 (by simp [hb2]))
    show removeBlockAt off (c :: (rest ++ b :: suf)) = some (c :: (rest ++ suf))
    unfold removeBlockAt
    rw [if_neg (hpre c (by simp)), hrec]

/-- C5 (amended): for every deallocation of a non-null pointer, a pointer
outside the arena fails with ForeignPointer; a pointer inside the arena with
no matching record fails with DoubleFreeOrUnmanaged; otherwise exactly the
first record whose offset equals the pointer's offset from the base is
removed; and the size/alignment hints never influence the result. -/
theorem deallocate_behavior (r : CustomBlockMemoryResource) (p s a : Nat)
    (hp : p ≠ 0) :
    (¬ inArena r p → do_deallocate r p s a = Except.error DeallocError.foreignPointer) ∧
    (inArena r p → (∀ b ∈ r.blocks, b.offset ≠ p - r.buffer_base) →
      do_deallocate r p s a = Except.error DeallocError.doubleFreeOrUnmanaged) ∧
    (∀ pre b suf, inArena r p → r.blocks = pre ++ b :: suf →
      b.offset = p - r.buffer_base →
      (∀ b2 ∈ pre, b2.offset ≠ p - r.buffer_base) →
      do_deallocate r p s a = Except.ok { r with blocks := pre ++ suf }) ∧
    (∀ s2 a2, do_deallocate r p s a = do_deallocate r p s2 a2) := by
  refine ⟨?_, ?_, ?_, fun s2 a2 => rfl⟩
  · intro hni
    have hcond : p < r.buffer_base ∨ r.buffer_base + r.capacity ≤ p := by
      unfold inArena at hni
      omega
    unfold do_deallocate
    rw [if_neg hp, if_pos hcond]
  · intro hin hnone
    have hcond : ¬ (p < r.buffer_base ∨ r.buffer_base + r.capacity ≤ p) := by
      unfold inArena at hin
      omega
    unfold do_deallocate
    rw [if_neg hp, if_neg hcond, removeBlockAt_eq_none _ _ hnone]
  · intro pre b suf hin heq hoff hpre
    have hcond : ¬ (p < r.buffer_base ∨ r.buffer_base + r.capacity ≤ p) := by
      unfold inArena at hin
      omega
    unfold do_deallocate
    rw [if_neg hp, if_neg hcond, heq, removeBlockAt_first _ _ _ _ hoff hpre]

/-- Witness for the amended C5 theorem: freeing the record at offset 16 of
`rDemo` removes exactly that record. -/
theorem deallocate_behavior_w :
    do_deallocate rDemo 4112 16 1 =
      Except.ok { capacity := 100, buffer_alignment := 64, buffer_base := 4096,
                  blocks := [⟨0, 16⟩] } :=
  (deallocate_behavior rDemo 4112 16 1 (by decide)).2.2.1
    [⟨0, 16⟩] ⟨16, 16⟩ [] (by decide) rfl rfl (by decide)

/-- C10: deallocating the null pointer always succeeds as a no-op with the
state unchanged, although the null pointer lies outside the arena range
whenever the base address is non-null. -/
theorem deallocate_null_noop (r : CustomBlockMemoryResource) (s a : Nat) :
    do_deallocate r 0 s a = Except.ok r ∧
    (0 < r.buffer_base → ¬ inArena r 0) := by
  refine ⟨rfl, fun hb hin => ?_⟩
  have h1 := hin.1
  omega

/-- Witness for C10 at a concrete arena. -/
theorem deallocate_null_noop_w :
    do_deallocate r100 0 3 5 = Except.ok r100 ∧ ¬ inArena r100 0 :=
  ⟨(deallocate_null_noop r100 3 5).1, (deallocate_null_noop r100 3 5).2 (by decide)⟩

/-- When the effective alignment fits under the ceiling, `do_allocate` never
throws from the alignment check site. -/
theorem do_allocate_not_alignment_error (r : CustomBlockMemoryResource)
    (bytes a : Nat)
    (hc : ¬ r.buffer_alignment < (if a = 0 then alignof_max_align_t else a)) :
    do_allocate r bytes a ≠ Except.error AllocError.alignmentExceeded := by
  intro h
  simp only [do_allocate, gt_iff_lt] at h
  generalize hRA : (if a = 0 then alignof_max_align_t else a) = RA at h hc
  generalize (if bytes = 0 then 1 else bytes) = B at h
  rw [if_neg hc] at h
  split at h
  · exact Except.noConfusion h
  · split at h
    · injection h with he
      exact AllocError.noConfusion he
    · exact Except.noConfusion h

/-- C7: `allocate(bytes, a)` throws from the alignment check exactly when the
effective requested alignment (`a` itself when positive, the platform's
default scalar alignment when `a == 0`) exceeds the arena's alignment
ceiling, and in that case the occupied-block index is untouched. -/
theorem alignment_exceeded_characterization (r : CustomBlockMemoryResource)
    (bytes a : Nat) :
    (do_allocate r bytes a = Except.error AllocError.alignmentExceeded ↔
      r.buffer_alignment < (if a = 0 then alignof_max_align_t else a)) ∧
    (r.buffer_alignment < (if a = 0 then alignof_max_align_t else a) →
      applyOp r (AllocOp.alloc bytes a) = r) := by
  by_cases hc : r.buffer_alignment < (if a = 0 then alignof_max_align_t else a)
  · have herr : do_allocate r bytes a = Except.error AllocError.alignmentExceeded := by
      simp only [do_allocate, gt_iff_lt]
      rw [if_pos hc]
    refine ⟨⟨fun _ => hc, fun _ => herr⟩, fun _ => ?_⟩
    simp [applyOp, herr]
  · exact ⟨⟨fun h => absurd h (do_allocate_not_alignment_error r bytes a hc),
           fun h => absurd h hc⟩,
          fun h => absurd h hc⟩

/-- Witness for C7: a 128-byte alignment request against the 64-byte ceiling
of `r100` throws and leaves the state unchanged. -/
theorem alignment_exceeded_characterization_w :
    do_allocate r100 8 128 = Except.error AllocError.alignmentExceeded ∧
    applyOp r100 (AllocOp.alloc 8 128) = r100 :=
  ⟨(alignment_exceeded_characterization r100 8 128).1.mpr (by decide),
   (alignment_exceeded_characterization r100 8 128).2 (by decide)⟩

/-- C8: a call that throws leaves the instance's state exactly as it was, and
any continuation behaves as if the failed call had never happened. -/
theorem failed_call_preserves_state (r : CustomBlockMemoryResource)
    (op : AllocOp) (ops : List AllocOp) (h : opFails r op = true) :
    applyOp r op = r ∧ runOps r (op :: ops) = runOps r ops := by
  have h1 : applyOp r op = r := by
    cases op with
    | alloc b a =>
      simp only [opFails] at h
      simp only [applyOp]
      cases hd : do_allocate r b a with
      | ok v => rw [hd] at h; simp [isErr] at h
      | error e => rfl
    | dealloc p sh ah =>
      simp only [opFails] at h
      simp only [applyOp]
      cases hd : do_deallocate r p sh ah with
      | ok v => rw [hd] at h; simp [isErr] at h
      | error e => rfl
  refine ⟨h1, ?_⟩
  show runOps (applyOp r op) ops = runOps r ops
  rw [h1]

/-- Witness for C8: a double free (no record at offset 0 of the empty arena
`r100`) fails and does not disturb a subsequent allocation. -/
theorem failed_call_preserves_state_w :
    applyOp r100 (AllocOp.dealloc 4096 1 1) = r100 ∧
    runOps r100 [AllocOp.dealloc 4096 1 1, AllocOp.alloc 8 1] =
      runOps r100 [AllocOp.alloc 8 1] :=
  failed_call_preserves_state r100 (AllocOp.dealloc 4096 1 1) [AllocOp.alloc 8 1]
    (by decide)

/-!
Lemmas about the queue's node store and linked chain.
-/

namespace PmrQueue

variable {T : Type}

/-- A fresh pair consed on front does not disturb other lookups. -/
theorem lookupNode_cons_ne {na a : Nat} (n : QNode T) (store : List (Nat × QNode T))
    (hne : na ≠ a) : lookupNode ((na, n) :: store) a = lookupNode store a := by
  simp [lookupNode, hne]

/-- Writing the `next` field of one node does not disturb other lookups. -/
theorem lookupNode_setNext_ne {t a : Nat} (store : List (Nat × QNode T))
    (nx : Option Nat) (hne : a ≠ t) :
    lookupNode (setNext store t nx) a = lookupNode store a := by
  induction store with
  | nil => rfl
  | cons p rest ih =>
    by_cases hp : p.1 = t
    · have hpa : ¬ p.1 = a := by rw [hp]; exact fun he => hne he.symm
      simp [setNext, lookupNode, hp, hpa, Ne.symm hne]
    · by_cases hpa : p.1 = a
      · simp [setNext, lookupNode, hp, hpa, hne]
      · simp [setNext, lookupNode, hp, hpa, ih]

/-- Writing the `next` field of a present node updates exactly that field. -/
theorem lookupNode_setNext_self {t : Nat} (store : List (Nat × QNode T))
    (nx : Option Nat) (n : QNode T) (h : lookupNode store t = some n) :
    lookupNode (setNext store t nx) t = some ⟨n.value, nx⟩ := by
  induction store with
  | nil => exact Option.noConfusion h
  | cons p rest ih =>
    by_cases hp : p.1 = t
    · simp only [lookupNode, if_pos hp] at h
      injection h with h2
      simp [setNext, lookupNode, hp, h2]
    · simp only [lookupNode, if_neg hp] at h
      simp [setNext, lookupNode, hp, ih h]

/-- Writing a `next` field leaves the store's addresses unchanged. -/
theorem setNext_keys {t : Nat} (store : List (Nat × QNode T)) (nx : Option Nat) :
    (setNext store t nx).map Prod.fst = store.map Prod.fst := by
  induction store with
  | nil => rfl
  | cons p rest ih =>
    by_cases hp : p.1 = t
    · simp [setNext, hp]
    · simp [setNext, hp, ih]

/-- Freeing a node erases exactly the first occurrence of its address. -/
theorem removeAddr_keys (store : List (Nat × QNode T)) (a : Nat) :
    (removeAddr store a).map Prod.fst = (store.map Prod.fst).erase a := by
  induction store with
  | nil => rfl
  | cons p rest ih =>
    by_cases hp : p.1 = a
    · simp [removeAddr, hp, List.erase_cons]
    · simp [removeAddr, hp, List.erase_cons, ih]

/-- Freeing one node does not disturb lookups at other addresses. -/
theorem lookupNode_removeAddr_ne {a b : Nat} (store : List (Nat × QNode T))
    (hne : b ≠ a) : lookupNode (removeAddr store a) b = lookupNode store b := by
  induction store with
  | nil => rfl
  | cons p rest ih =>
    by_cases hp : p.1 = a
    · have hpb : ¬ p.1 = b := by rw [hp]; exact fun he => hne he.symm
      simp [removeAddr, lookupNode, hp, hpb, Ne.symm hne]
    · by_cases hpb : p.1 = b
      · simp [removeAddr, lookupNode, hp, hpb, hne]
      · simp [removeAddr, lookupNode, hp, hpb, ih]

/-- A chain is preserved by any store transformation that preserves the
lookups of its members. -/
theorem chain_congr {store store2 : List (Nat × QNode T)} {cur : Option Nat}
    {as : List Nat} {vs : List T} (h : NodeChain store cur as vs)
    (hcong : ∀ a ∈ as, lookupNode store2 a = lookupNode store a) :
    NodeChain store2 cur as vs := by
  induction h with
  | nil => exact NodeChain.nil
  | cons hl _ ih =>
    exact NodeChain.cons (by rw [hcong _ (by simp)]; exact hl)
      (ih fun x hx => hcong x (by simp [hx]))

/-- An empty chain starts at null and carries no values. -/
theorem chain_nil_inv {store : List (Nat × QNode T)} {cur : Option Nat}
    {vs : List T} (h : NodeChain store cur [] vs) : cur = none ∧ vs = [] := by
  cases h
  exact ⟨rfl, rfl⟩

/-- Destructing a non-empty chain. -/
theorem chain_cons_inv {store : List (Nat × QNode T)} {cur : Option Nat}
    {a : Nat} {as : List Nat} {vs : List T} (h : NodeChain store cur (a :: as) vs) :
    cur = some a ∧ ∃ v nx vs2, vs = v :: vs2 ∧
      lookupNode store a = some ⟨v, nx⟩ ∧ NodeChain store nx as vs2 := by
  cases h with
  | cons hl h2 => exact ⟨rfl, _, _, _, rfl, hl, h2⟩

/-- The last node of a chain has a null `next` pointer. -/
theorem chain_last_next_none {store : List (Nat × QNode T)} {cur : Option Nat}
    {as : List Nat} {vs : List T} {t : Nat} (h : NodeChain store cur as vs)
    (hlast : as.getLast? = some t) :
    ∃ tv, lookupNode store t = some ⟨tv, none⟩ := by
  induction h with
  | nil => exact Option.noConfusion hlast
  | @cons a v nx as2 vs2 hl h2 ih =>
    cases as2 with
    | nil =>
      obtain ⟨hnx, _⟩ := chain_nil_inv h2
      have hat : a = t := by
        simp only [List.getLast?_singleton] at hlast
        injection hlast
      subst hat
      subst hnx
      exact ⟨v, hl⟩
    | cons b rest2 =>
      exact ih (by rw [← List.getLast?_cons_cons]; exact hlast)

/-- Consing a fresh pair commutes with a `next`-write at an older address. -/
theorem setNext_cons_ne {na t : Nat} (n : QNode T) (store : List (Nat × QNode T))
    (nx : Option Nat) (hne : na ≠ t) :
    setNext ((na, n) :: store) t nx = (na, n) :: setNext store t nx := by
  simp [setNext, hne]

/-- Linking a fresh node after the chain's last node extends the chain by one
element: the heart of `emplace` on a non-empty queue. -/
theorem chain_snoc {store : List (Nat × QNode T)} {cur : Option Nat}
    {as : List Nat} {vs : List T} {t w : Nat} {v : T}
    (h : NodeChain store cur as vs) (hlast : as.getLast? = some t)
    (ht : ∃ tv, lookupNode store t = some ⟨tv, none⟩)
    (hw : ∀ x ∈ as, x ≠ w) (hnd : as.Nodup) :
    NodeChain ((w, ⟨v, none⟩) :: setNext store t (some w)) cur
      (as ++ [w]) (vs ++ [v]) := by
  induction h with
  | nil => exact Option.noConfusion hlast
  | @cons a va nx as2 vs2 hl h2 ih =>
    cases as2 with
    | nil =>
      obtain ⟨hnx, hvs2⟩ := chain_nil_inv h2
      subst hnx
      subst hvs2
      have hat : a = t := by
        simp only [List.getLast?_singleton] at hlast
        injection hlast
      subst hat
      have haw : a ≠ w := hw a (by simp)
      refine NodeChain.cons ?_ (NodeChain.cons ?_ NodeChain.nil)
      · rw [lookupNode_cons_ne _ _ (Ne.symm haw)]
        exact lookupNode_setNext_self store (some w) ⟨va, none⟩ hl
      · simp [lookupNode]
    | cons b rest2 =>
      have hbl : (b :: rest2).getLast? = some t := by
        rw [← List.getLast?_cons_cons]
        exact hlast
      have hndc := List.nodup_cons.mp hnd
      have hat : a ≠ t := by
        intro he
        exact hndc.1 (he ▸ List.mem_of_getLast?_eq_some hbl)
      have haw : a ≠ w := hw a (by simp)
      refine NodeChain.cons ?_ (ih hbl (fun x hx => hw x (by simp [hx])) hndc.2)
      rw [lookupNode_cons_ne _ _ (Ne.symm haw), lookupNode_setNext_ne _ _ hat]
      exact hl

/-- An empty queue is well-formed with the empty chain. -/
theorem emptyQueue_wf : queueWf (emptyQueue T) [] [] :=
  ⟨NodeChain.nil, rfl, rfl, by simp, List.nodup_nil⟩

/-- C9 step lemma: `emplace` appends the new value at the back of the
abstraction and preserves well-formedness. -/
theorem emplace_wf {q : PmrQueue T} {as : List Nat} {vs : List T} (v : T)
    (hwf : queueWf q as vs) :
    queueWf (emplace q v) (as ++ [q.nextAddr]) (vs ++ [v]) := by
  obtain ⟨hch, hkeys, htail, hbound, hnd⟩ := hwf
  cases htl : q.tail with
  | none =>
    have has : as = [] := by
      rw [htl] at htail
      exact (List.getLast?_eq_none_iff.mp htail.symm)
    subst has
    obtain ⟨hhead, hvs⟩ := chain_nil_inv hch
    subst hvs
    have hstore : q.store = [] := by
      have := List.map_eq_nil_iff.mp hkeys
      simpa using this
    refine ⟨?_, ?_, ?_, ?_, ?_⟩
    · show NodeChain (emplace q v).store (emplace q v).head [q.nextAddr] [v]
      simp only [emplace, htl]
      rw [hstore]
      exact NodeChain.cons (by simp [lookupNode]) NodeChain.nil
    · simp [emplace, htl, hstore]
    · simp [emplace, htl]
    · simp [emplace, htl]
    · simp
  | some t =>
    have hlast : as.getLast? = some t := by rw [← htail, htl]
    have ht := chain_last_next_none hch hlast
    have htw : t ≠ q.nextAddr := by
      intro he
      exact absurd (hbound t (List.mem_of_getLast?_eq_some hlast)) (by omega)
    have hw : ∀ x ∈ as, x ≠ q.nextAddr := by
      intro x hx he
      exact absurd (hbound x hx) (by omega)
    have hstoreq :
        (emplace q v).store =
          (q.nextAddr, ⟨v, none⟩) :: setNext q.store t (some q.nextAddr) := by
      simp only [emplace, htl]
      exact setNext_cons_ne _ _ _ (Ne.symm htw)
    refine ⟨?_, ?_, ?_, ?_, ?_⟩
    · show NodeChain (emplace q v).store (emplace q v).head
        (as ++ [q.nextAddr]) (vs ++ [v])
      rw [hstoreq]
      have hhead : (emplace q v).head = q.head := by simp [emplace, htl]
      rw [hhead]
      exact chain_snoc hch hlast ht hw hnd
    · rw [hstoreq]
      simp only [List.map_cons, setNext_keys, hkeys]
      simp
    · have : (emplace q v).tail = some q.nextAddr := by simp [emplace, htl]
      rw [this, List.getLast?_concat]
    · intro x hx
      have hna : (emplace q v).nextAddr = q.nextAddr + 1 := by simp [emplace, htl]
      rw [hna]
      rcases List.mem_append.mp hx with hx2 | hx2
      · exact Nat.lt_succ_of_lt (hbound x hx2)
      · have : x = q.nextAddr := by simpa using hx2
        omega
    · rw [List.nodup_append]
      refine ⟨hnd, by simp, ?_⟩
      intro x hx hx2
      have : x = q.nextAddr := by simpa using hx2
      exact hw x hx this

/-- C9 step lemma: on a well-formed non-empty queue, `front` observes the
oldest value and `pop` removes exactly it, preserving well-formedness. -/
theorem pop_front_wf {q : PmrQueue T} {a : Nat} {as : List Nat} {v : T}
    {vs : List T} (hwf : queueWf q (a :: as) (v :: vs)) :
    front q = some v ∧ ∃ q2, pop q = some q2 ∧ queueWf q2 as vs := by
  obtain ⟨hch, hkeys, htail, hbound, hnd⟩ := hwf
  obtain ⟨hhead, v2, nx, vs2, hvv, hl, hch2⟩ := chain_cons_inv hch
  injection hvv with he1 he2
  subst he1
  subst he2
  have hnotmem : a ∉ as := (List.nodup_cons.mp hnd).1
  have hfront : front q = some v := by
    simp [front, hhead, hl]
  refine ⟨hfront,
    { store := removeAddr q.store a, head := nx,
      tail := if nx = none then none else q.tail,
      size := q.size - 1, nextAddr := q.nextAddr }, ?_, ?_, ?_, ?_, ?_, ?_⟩
  · simp [pop, hhead, hl]
  · show NodeChain (removeAddr q.store a) nx as vs
    refine chain_congr hch2 ?_
    intro x hx
    exact lookupNode_removeAddr_ne _ (fun he => hnotmem (he ▸ hx))
  · show (removeAddr q.store a).map Prod.fst = as.reverse
    rw [removeAddr_keys, hkeys, List.reverse_cons,
        List.erase_append_right _ (by simpa using hnotmem)]
    simp
  · show (if nx = none then none else q.tail) = as.getLast?
    cases hnx : nx with
    | none =>
      rw [hnx] at hch2
      cases hch2
      simp
    | some b =>
      cases as with
      | nil =>
        rw [hnx] at hch2
        exact absurd (chain_nil_inv hch2).1 (by simp)
      | cons c rest =>
        rw [if_neg (fun h => Option.noConfusion h)]
        rw [htail, List.getLast?_cons_cons]
  · intro x hx
    exact hbound x (by simp [hx])
  · exact (List.nodup_cons.mp hnd).2

/-- The iterator walk reproduces the chain's values once the fuel covers the
chain length. -/
theorem collectFrom_of_chain {store : List (Nat × QNode T)} {cur : Option Nat}
    {as : List Nat} {vs : List T} (h : NodeChain store cur as vs) :
    ∀ fuel, as.length ≤ fuel → collectFrom store cur fuel = vs := by
  induction h with
  | nil => intro fuel _; cases fuel <;> rfl
  | @cons a v nx as2 vs2 hl h2 ih =>
    intro fuel hfuel
    cases fuel with
    | zero => exact absurd hfuel (by simp)
    | succ f =>
      show (match lookupNode store a with
            | none => []
            | some n => n.value :: collectFrom store n.next f) = v :: vs2
      rw [hl]
      simp only []
      rw [ih f (Nat.le_of_succ_le_succ hfuel)]

/-- C9 iteration lemma: forward iteration of a well-formed queue visits
exactly the live values in insertion order. -/
theorem toList_wf {q : PmrQueue T} {as : List Nat} {vs : List T}
    (hwf : queueWf q as vs) : toList q = vs := by
  obtain ⟨hch, hkeys, _, _, _⟩ := hwf
  have hlen : q.store.length = as.length := by
    have h1 : (q.store.map Prod.fst).length = as.reverse.length := by rw [hkeys]
    simpa using h1
  unfold toList
  rw [hlen]
  exact collectFrom_of_chain hch as.length (Nat.le_refl _)

/-- Pushing a list of values appends them to the abstraction in order. -/
theorem pushAll_wf {xs : List T} :
    ∀ {q : PmrQueue T} {as : List Nat} {vs : List T}, queueWf q as vs →
      ∃ as2, queueWf (pushAll q xs) as2 (vs ++ xs) := by
  induction xs with
  | nil => intro q as vs hwf; exact ⟨as, by simpa using hwf⟩
  | cons x rest ih =>
    intro q as vs hwf
    have hstep := emplace_wf x hwf
    obtain ⟨as2, h2⟩ := ih hstep
    refine ⟨as2, ?_⟩
    have hfold : pushAll q (x :: rest) = pushAll (emplace q x) rest := rfl
    rw [hfold]
    simpa using h2

/-- Draining a well-formed queue by repeated front/pop yields its values in
order. -/
theorem frontPopN_wf {vs : List T} :
    ∀ {q : PmrQueue T} {as : List Nat}, queueWf q as vs →
      frontPopN q vs.length = vs := by
  induction vs with
  | nil => intro q as _; rfl
  | cons v rest ih =>
    intro q as hwf
    cases as with
    | nil =>
      obtain ⟨hch, _, _, _, _⟩ := hwf
      exact absurd (chain_nil_inv hch).2 (by simp)
    | cons a as2 =>
      obtain ⟨hfront, q2, hpop, hwf2⟩ := pop_front_wf hwf
      show (match front q, pop q with
            | some w, some q3 => w :: frontPopN q3 rest.length
            | _, _ => []) = v :: rest
      rw [hfront, hpop]
      simp only []
      rw [ih hwf2]

end PmrQueue

open PmrQueue in
/-- C9: for every sequence of pushed values, forward iteration from `begin()`
to `end()` visits exactly the live elements in insertion order, and draining
the queue by repeated front/pop observes the same values in insertion
order. -/
theorem fifo_order_and_iteration (T : Type) (xs : List T) :
    toList (pushAll (emptyQueue T) xs) = xs ∧
    frontPopN (pushAll (emptyQueue T) xs) xs.length = xs := by
  obtain ⟨as2, hwf⟩ := @pushAll_wf T xs (emptyQueue T) [] [] emptyQueue_wf
  rw [List.nil_append] at hwf
  exact ⟨toList_wf hwf, frontPopN_wf hwf⟩
